import Mathlib

/-!
Verification of the codepoint classification generator (`gen-wcwidth.py`).

The development shallowly embeds the pure core of the generator:

* `get_ranges` — the range compressor: sort a finite list of codepoints and
  group maximal runs of consecutive integers (the Python version groups by
  `enumerate` index minus value; on a sorted list this is exactly "the next
  element equals the previous plus one", which is what `goRuns` tests).
* `partition` — the priority-partition engine of `gen_wcwidth.add`/`add_all`:
  each layer's residual is its set minus the `seen` accumulator, which then
  grows by the residual; the residual is compressed with `get_ranges`.
* `RangeSpec.mem` / `RangeSpec.memGo` — the matching semantics of the two
  `write_case` backends (C inclusive-range case labels vs. Go enumerated
  case labels).
* `mark_map` / `markClauses` / `mark_for_codepoint` / `codepoint_for_mark` —
  the dense mark index of `codepoint_to_mark_map` and the generated
  `codepoint_for_mark` array lookup.
* `subnGo` / `patchKnownMarks` — the anchored `re.subn` patch of
  `kitty/unicode-data.h` performed by `gen_ucd`, modelled on a list of lines.
* `gen_names` — the name/alias export of `gen_names`.

Sets of codepoints are represented by `List Nat` (the Python code uses
`set`; theorems that need set-ness take a `Nodup` hypothesis).  Sorting a
list (`items.sort()` / `sorted(...)`) is modelled by `List.insertionSort`.
-/

/-- One element of the compressed output of `get_ranges`: the Python
generator yields a bare codepoint for a run of length one and an inclusive
`(lo, hi)` pair for a longer run. -/
inductive RangeSpec where
  | single (a : Nat)
  | interval (a b : Nat)
deriving DecidableEq, Repr

def RangeSpec.lo : RangeSpec → Nat
  | RangeSpec.single a => a
  | RangeSpec.interval a _ => a

def RangeSpec.hi : RangeSpec → Nat
  | RangeSpec.single a => a
  | RangeSpec.interval _ b => b

/-- Matching semantics of one C backend case clause produced by
`write_case` (`case lo ... hi:` for an interval, `case a:` for a point). -/
def RangeSpec.mem (c : Nat) (r : RangeSpec) : Bool :=
  decide (r.lo ≤ c) && decide (c ≤ r.hi)

/-- `yield a` versus `yield a, b` in `get_ranges`. -/
def mkSpec (a b : Nat) : RangeSpec :=
  if a = b then RangeSpec.single a else RangeSpec.interval a b

/-- The grouping walk of `get_ranges`: `lo`/`hi` are the first and last
element of the current run; a new element extends the run exactly when it
equals `hi + 1` (on a sorted list this is the Python `groupby` criterion
`index - value` constant). -/
def goRuns (lo hi : Nat) : List Nat → List RangeSpec
  | [] => [mkSpec lo hi]
  | y :: ys => if y = hi + 1 then goRuns lo y ys else mkSpec lo hi :: goRuns y y ys

/-- The grouping pass of `get_ranges` over the already sorted list. -/
def getRangesSorted : List Nat → List RangeSpec
  | [] => []
  | x :: xs => goRuns x x xs

/-- `get_ranges(items)`: `items.sort()` then group maximal consecutive runs. -/
def get_ranges (items : List Nat) : List RangeSpec :=
  getRangesSorted (List.insertionSort (· ≤ ·) items)

/-- Number of adjacent pairs of a (sorted) list that do not continue a run
of consecutive integers. -/
def gapCount : List Nat → Nat
  | a :: b :: rest => (if b = a + 1 then 0 else 1) + gapCount (b :: rest)
  | _ => 0

/-- Number of maximal runs of consecutive integers in a sorted list: one
for a nonempty list plus one for every break between adjacent elements. -/
def runCount (l : List Nat) : Nat :=
  match l with
  | [] => 0
  | _ :: _ => 1 + gapCount l

/-- Case labels of the Go (range-expanding) backend of `write_case`: an
interval is enumerated as every discrete value `range(lo, hi + 1)`. -/
def case_labels_go : RangeSpec → List Nat
  | RangeSpec.single a => [a]
  | RangeSpec.interval a b => List.range' a (b + 1 - a)

/-- Matching semantics of one Go backend case clause. -/
def RangeSpec.memGo (c : Nat) (r : RangeSpec) : Bool :=
  decide (c ∈ case_labels_go r)

/-- A layer of one partition pass of `add_all`: label (the comment), the
codepoint set (as a list), and the returned width/outcome. -/
structure Layer where
  label : String
  chars : List Nat
  ret : Int
deriving DecidableEq, Repr

/-- What `add` emits for one layer: the compressed residual ranges plus the
outcome. -/
structure Emitted where
  label : String
  ranges : List RangeSpec
  ret : Int
deriving DecidableEq, Repr

/-- Python set difference `chars_ - seen` on list-represented sets. -/
def setDiff (a seen : List Nat) : List Nat :=
  a.filter (fun c => decide (c ∉ seen))

/-- The body of `gen_wcwidth.add` iterated over the layers of `add_all`:
`chars = chars_ - seen; seen.update(chars)`, then the compressed residual
is emitted. -/
def partitionGo (seen : List Nat) : List Layer → List Emitted
  | [] => []
  | L :: rest =>
      Emitted.mk L.label (get_ranges (setDiff L.chars seen)) L.ret ::
        partitionGo (seen ++ setDiff L.chars seen) rest

/-- One partition pass (`add_all` starts from `seen.clear()`). -/
def partition (layers : List Layer) : List Emitted :=
  partitionGo [] layers

/-- Does any emitted C backend clause of this layer match codepoint `c`? -/
def Emitted.matches (e : Emitted) (c : Nat) : Bool :=
  e.ranges.any (RangeSpec.mem c)

/-- Does any emitted Go backend clause of this layer match codepoint `c`? -/
def Emitted.matchesGo (e : Emitted) (c : Nat) : Bool :=
  e.ranges.any (RangeSpec.memGo c)

/-- The classification function emitted by the C backend: first matching
layer's outcome, else the trailing `default:` outcome. -/
def classify (entries : List Emitted) (dflt : Int) (c : Nat) : Int :=
  match entries with
  | [] => dflt
  | e :: rest => if e.matches c then e.ret else classify rest dflt c

/-- The classification function emitted by the Go backend. -/
def classifyGo (entries : List Emitted) (dflt : Int) (c : Nat) : Int :=
  match entries with
  | [] => dflt
  | e :: rest => if e.matchesGo c then e.ret else classifyGo rest dflt c

/-- Is the codepoint in some layer's (original, pre-residual) set? -/
def inAnyLayer (layers : List Layer) (c : Nat) : Bool :=
  layers.any (fun L => decide (c ∈ L.chars))

/-- `mark_map = [0] + list(sorted(marks))` from `gen_ucd`. -/
def mark_map (marks : List Nat) : List Nat :=
  0 :: List.insertionSort (· ≤ ·) marks

/-- Accumulator loop behind `rmap = {c: m for m, c in enumerate(mark_map)}`:
a later binding of the same key wins; a missing key gives the accumulator
default. -/
def rmapGo (c acc i : Nat) : List Nat → Nat
  | [] => acc
  | x :: xs => rmapGo c (if x = c then i else acc) (i + 1) xs

/-- Reverse-map lookup `rmap[c]` (defaulting to 0 for a missing key). -/
def rmapGet (mm : List Nat) (c : Nat) : Nat :=
  rmapGo c 0 0 mm

/-- One clause printed by `codepoint_to_mark_map`: either
`case a: return r;` or `case lo: ... case hi: return s + c - lo;`. -/
inductive MarkClause where
  | fixedCl (a r : Nat)
  | offsetCl (a b s : Nat)
deriving DecidableEq, Repr

/-- The clause list printed by `codepoint_to_mark_map` for `mark_map`:
one clause per compressed range, an interval clause computing its return
value by arithmetic offset from `rmap[spec[0]]`. -/
def markClauses (mm : List Nat) : List MarkClause :=
  (get_ranges mm).map (fun spec =>
    match spec with
    | RangeSpec.single a => MarkClause.fixedCl a (rmapGet mm a)
    | RangeSpec.interval a b => MarkClause.offsetCl a b (rmapGet mm a))

/-- Evaluation of the generated `mark_for_codepoint` switch: first matching
clause, else the trailing `default: return 0;`. -/
def evalMarkClauses (cls : List MarkClause) (c : Nat) : Nat :=
  match cls with
  | [] => 0
  | MarkClause.fixedCl a r :: rest =>
      if c = a then r else evalMarkClauses rest c
  | MarkClause.offsetCl a b s :: rest =>
      if a ≤ c ∧ c ≤ b then s + (c - a) else evalMarkClauses rest c

/-- The generated reverse map `mark_for_codepoint` for a given mark set. -/
def mark_for_codepoint (marks : List Nat) (c : Nat) : Nat :=
  evalMarkClauses (markClauses (mark_map marks)) c

/-- The generated forward map `codepoint_for_mark`:
`if (m < arraysz(map)) return map[m]; return 0;`. -/
def codepoint_for_mark (marks : List Nat) (m : Nat) : Nat :=
  (mark_map marks).getD m 0

/-- Does a line of `kitty/unicode-data.h` begin the anchor block
(`^// START_KNOWN_MARKS` of the multiline regex)? -/
def lineIsStart (l : String) : Bool :=
  "// START_KNOWN_MARKS".data.isPrefixOf l.data

/-- Does a line end the anchor block (`^// END_KNOWN_MARKS`)? -/
def lineIsEnd (l : String) : Bool :=
  "// END_KNOWN_MARKS".data.isPrefixOf l.data

/-- The replacement text of the `re.subn` call in `gen_ucd`, as lines. -/
def replKnownMarks (vs15 vs16 : Nat) : List String :=
  ["// START_KNOWN_MARKS",
   "static const combining_type VS15 = " ++ toString vs15 ++
     ", VS16 = " ++ toString vs16 ++ ";",
   "// END_KNOWN_MARKS"]

/-- Line-level model of
`re.subn(r'^// START_KNOWN_MARKS.+?^// END_KNOWN_MARKS', repl, raw,
flags=re.MULTILINE | re.DOTALL)`: replace every non-overlapping block
reaching from a `START` line to the next `END` line; a `START` line with no
following `END` line matches nothing.  The `Option` state holds the pending
`START` line and the lines scanned past it (to be restored if no `END`
follows).  Returns the rewritten lines and the number of replacements. -/
def subnGo (repl : List String) :
    Option (String × List String) → List String → List String × Nat
  | none, [] => ([], 0)
  | some (st, pend), [] => (st :: pend.reverse, 0)
  | none, l :: ls =>
      if lineIsStart l then subnGo repl (some (l, [])) ls
      else
        let r := subnGo repl none ls
        (l :: r.1, r.2)
  | some (st, pend), l :: ls =>
      if lineIsEnd l then
        let r := subnGo repl none ls
        (repl ++ r.1, r.2 + 1)
      else subnGo repl (some (st, l :: pend)) ls

/-- The patch step of `gen_ucd` on `kitty/unicode-data.h`: substitute the
anchor block; `if not num: raise SystemExit(...)`, and only on success is
the file truncated and rewritten. -/
def patchKnownMarks (vs15 vs16 : Nat) (lines : List String) :
    Except String (List String) :=
  if (subnGo (replKnownMarks vs15 vs16) none lines).2 = 0 then
    Except.error "Faile dto patch mark definitions in unicode-data.h"
  else Except.ok (subnGo (replKnownMarks vs15 vs16) none lines).1

/-- Resulting content of the target artifact after the patch attempt: the
run aborts before `truncate()`/`write()` when the substitution failed, so
the pre-existing content survives. -/
def fileAfterPatch (vs15 vs16 : Nat) (lines : List String) : List String :=
  match patchKnownMarks vs15 vs16 lines with
  | Except.ok out => out
  | Except.error _ => lines

/-- `name.lower()` (character-wise lowering of the stored name). -/
def lowerStr (s : String) : String :=
  String.mk (s.data.map Char.toLower)

def wordsAux (w : List Char) : List Char → List (List Char)
  | [] => if w = [] then [] else [w.reverse]
  | c :: cs =>
      if c = ' ' then
        (if w = [] then wordsAux [] cs else w.reverse :: wordsAux [] cs)
      else wordsAux (c :: w) cs

/-- `str.split()` with no argument: split on blank runs, no empty tokens. -/
def splitWords (s : String) : List String :=
  (wordsAux [] s.data).map String.mk

def joinSpace : List String → String
  | [] => ""
  | [x] => x
  | x :: xs => x ++ " " ++ joinSpace xs

/-- The words mapping to `cp` in `word_search_map` (i.e. the alias set
`aliases_map` built by `gen_names`). -/
def aliasesOf (wsm : List (String × List Nat)) (cp : Nat) : List String :=
  (wsm.filter (fun p => decide (cp ∈ p.2))).map Prod.fst

/-- Python `dict` lookup over an insertion list: the latest binding of the
key wins; missing keys give `""` (never hit on the keys we use). -/
def dictGet (nm : List (Nat × String)) (cp : Nat) : String :=
  nm.foldl (fun acc p => if p.1 = cp then p.2 else acc) ""

/-- The distinct keys of a `dict` built from an insertion list. -/
def dictKeys (nm : List (Nat × String)) : List Nat :=
  (nm.map Prod.fst).dedup

/-- The distinct keys of `word_search_map`. -/
def wsmKeys (wsm : List (String × List Nat)) : List String :=
  (wsm.map Prod.fst).dedup

/-- The primary name tokens of a codepoint: `name.lower().split()`. -/
def primaryWords (nm : List (Nat × String)) (cp : Nat) : List String :=
  splitWords (lowerStr (dictGet nm cp))

/-- `sorted(aliases_map.get(cp, set()) - set(words))` of `gen_names`. -/
def finalAliases (nm : List (Nat × String)) (wsm : List (String × List Nat))
    (cp : Nat) : List String :=
  List.insertionSort (· ≤ ·)
    ((aliasesOf wsm cp).filter (fun w => decide (w ∉ primaryWords nm cp)))

/-- One body line that `gen_names` prints for codepoint `cp`:
`print(cp, *words, end=end)` with `end` carrying the tab-separated sorted
aliases when there are any. -/
def nameLine (nm : List (Nat × String)) (wsm : List (String × List Nat))
    (cp : Nat) : String :=
  joinSpace (toString cp :: primaryWords nm cp) ++
    (if finalAliases nm wsm cp = [] then ""
     else "\t" ++ joinSpace (finalAliases nm wsm cp))

/-- The leading counts line `print(len(name_map), len(word_search_map))`. -/
def headerNames (nm : List (Nat × String)) (wsm : List (String × List Nat)) :
    String :=
  toString (dictKeys nm).length ++ " " ++ toString (wsmKeys wsm).length

/-- The name/alias export of `gen_names`, as the list of lines of
`tools/unicode_names/names.txt`; the size check precedes the opening of
the output file, so on error nothing at all is written. -/
def gen_names (nm : List (Nat × String)) (wsm : List (String × List Nat)) :
    Except String (List String) :=
  if 0xffff < (dictKeys nm).length then
    Except.error "Too many named codepoints"
  else
    Except.ok
      (headerNames nm wsm ::
        (List.insertionSort (· ≤ ·) (dictKeys nm)).map (nameLine nm wsm))

/-! ## Lemmas about the range compressor -/

theorem mkSpec_lo (a b : Nat) : (mkSpec a b).lo = a := by
  unfold mkSpec; split <;> rfl

theorem mkSpec_hi {a b : Nat} (h : a ≤ b) : (mkSpec a b).hi = b := by
  unfold mkSpec; split
  · next heq => simp [RangeSpec.hi, heq]
  · rfl

theorem rangeSpec_mem_iff {c : Nat} {r : RangeSpec} :
    RangeSpec.mem c r = true ↔ r.lo ≤ c ∧ c ≤ r.hi := by
  simp [RangeSpec.mem]

theorem mkSpec_mem {a b : Nat} (c : Nat) (h : a ≤ b) :
    RangeSpec.mem c (mkSpec a b) = true ↔ a ≤ c ∧ c ≤ b := by
  rw [rangeSpec_mem_iff, mkSpec_lo, mkSpec_hi h]

theorem goRuns_mem (c : Nat) (xs : List Nat) :
    ∀ lo hi : Nat, lo ≤ hi →
      ((goRuns lo hi xs).any (RangeSpec.mem c) = true ↔
        (lo ≤ c ∧ c ≤ hi) ∨ c ∈ xs) := by
  induction xs with
  | nil =>
      intro lo hi h
      simp [goRuns, mkSpec_mem c h]
  | cons y ys ih =>
      intro lo hi h
      unfold goRuns
      by_cases hy : y = hi + 1
      · subst hy
        rw [if_pos rfl, ih lo (hi + 1) (by omega)]
        have harith : (lo ≤ c ∧ c ≤ hi + 1) ↔
            ((lo ≤ c ∧ c ≤ hi) ∨ c = hi + 1) := by omega
        rw [harith, List.mem_cons, or_assoc]
      · rw [if_neg hy]
        simp only [List.any_cons, Bool.or_eq_true, mkSpec_mem c h,
          ih y y (Nat.le_refl y), List.mem_cons]
        have harith : (y ≤ c ∧ c ≤ y) ↔ c = y := by omega
        rw [harith]

theorem goRuns_wf (xs : List Nat) :
    ∀ lo hi : Nat, lo ≤ hi → ∀ r ∈ goRuns lo hi xs, r.lo ≤ r.hi := by
  induction xs with
  | nil =>
      intro lo hi h r hr
      simp only [goRuns, List.mem_singleton] at hr
      subst hr
      rw [mkSpec_lo, mkSpec_hi h]; exact h
  | cons y ys ih =>
      intro lo hi h r hr
      unfold goRuns at hr
      by_cases hy : y = hi + 1
      · subst hy
        rw [if_pos rfl] at hr
        exact ih lo (hi + 1) (by omega) r hr
      · rw [if_neg hy] at hr
        rcases List.mem_cons.mp hr with rfl | hr'
        · rw [mkSpec_lo, mkSpec_hi h]; exact h
        · exact ih y y (Nat.le_refl y) r hr'

theorem goRuns_lo_ge (xs : List Nat) :
    ∀ lo hi : Nat, lo ≤ hi → List.Chain (· < ·) hi xs →
      ∀ r ∈ goRuns lo hi xs, lo ≤ r.lo := by
  induction xs with
  | nil =>
      intro lo hi _ _ r hr
      simp only [goRuns, List.mem_singleton] at hr
      subst hr
      rw [mkSpec_lo]
  | cons y ys ih =>
      intro lo hi h hch r hr
      cases hch with
      | cons hlt hch' =>
        unfold goRuns at hr
        by_cases hy : y = hi + 1
        · subst hy
          rw [if_pos rfl] at hr
          exact ih lo (hi + 1) (by omega) hch' r hr
        · rw [if_neg hy] at hr
          rcases List.mem_cons.mp hr with rfl | hr'
          · rw [mkSpec_lo]
          · have := ih y y (Nat.le_refl y) hch' r hr'
            omega

theorem goRuns_pairwise (xs : List Nat) :
    ∀ lo hi : Nat, lo ≤ hi → List.Chain (· < ·) hi xs →
      (goRuns lo hi xs).Pairwise (fun r s => r.hi + 1 < s.lo) := by
  induction xs with
  | nil =>
      intro lo hi _ _
      simp [goRuns]
  | cons y ys ih =>
      intro lo hi h hch
      cases hch with
      | cons hlt hch' =>
        unfold goRuns
        by_cases hy : y = hi + 1
        · subst hy
          rw [if_pos rfl]
          exact ih lo (hi + 1) (by omega) hch'
        · rw [if_neg hy]
          refine List.Pairwise.cons ?_ (ih y y (Nat.le_refl y) hch')
          intro s hs
          have hls := goRuns_lo_ge ys y y (Nat.le_refl y) hch' s hs
          rw [mkSpec_hi h]
          omega

theorem goRuns_length (xs : List Nat) :
    ∀ lo hi : Nat, (goRuns lo hi xs).length = 1 + gapCount (hi :: xs) := by
  induction xs with
  | nil =>
      intro lo hi
      simp [goRuns, gapCount]
  | cons y ys ih =>
      intro lo hi
      unfold goRuns
      by_cases hy : y = hi + 1
      · rw [if_pos hy, ih lo y]
        simp [gapCount, hy]
      · rw [if_neg hy]
        simp only [List.length_cons, ih y y, gapCount, if_neg hy]
        omega

theorem getRangesSorted_mem (l : List Nat) (c : Nat) :
    (getRangesSorted l).any (RangeSpec.mem c) = true ↔ c ∈ l := by
  cases l with
  | nil => simp [getRangesSorted]
  | cons x xs =>
      show (goRuns x x xs).any (RangeSpec.mem c) = true ↔ c ∈ x :: xs
      rw [goRuns_mem c xs x x (Nat.le_refl x), List.mem_cons]
      have harith : (x ≤ c ∧ c ≤ x) ↔ c = x := by omega
      rw [harith]

theorem getRangesSorted_wf (l : List Nat) :
    ∀ r ∈ getRangesSorted l, r.lo ≤ r.hi := by
  cases l with
  | nil => simp [getRangesSorted]
  | cons x xs => exact goRuns_wf xs x x (Nat.le_refl x)

theorem getRangesSorted_pairwise {l : List Nat} (h : l.Sorted (· < ·)) :
    (getRangesSorted l).Pairwise (fun r s => r.hi + 1 < s.lo) := by
  cases l with
  | nil => simp [getRangesSorted]
  | cons x xs =>
      have hch : List.Chain (· < ·) x xs := List.chain'_iff_pairwise.mpr h
      exact goRuns_pairwise xs x x (Nat.le_refl x) hch

theorem getRangesSorted_length (l : List Nat) :
    (getRangesSorted l).length = runCount l := by
  cases l with
  | nil => rfl
  | cons x xs => exact goRuns_length xs x x

theorem get_ranges_mem (l : List Nat) (c : Nat) :
    (get_ranges l).any (RangeSpec.mem c) = true ↔ c ∈ l := by
  unfold get_ranges
  rw [getRangesSorted_mem]
  exact (List.perm_insertionSort (· ≤ ·) l).mem_iff

theorem insertionSort_sorted_lt {l : List Nat} (h : l.Nodup) :
    (List.insertionSort (· ≤ ·) l).Sorted (· < ·) := by
  have hs := List.sorted_insertionSort (· ≤ ·) l
  have hnd : (List.insertionSort (· ≤ ·) l).Nodup :=
    ((List.perm_insertionSort (· ≤ ·) l).nodup_iff).mpr h
  exact hs.lt_of_le hnd

theorem get_ranges_pairwise {l : List Nat} (h : l.Nodup) :
    (get_ranges l).Pairwise (fun r s => r.hi + 1 < s.lo) :=
  getRangesSorted_pairwise (insertionSort_sorted_lt h)

theorem get_ranges_wf (l : List Nat) :
    ∀ r ∈ get_ranges l, r.lo ≤ r.hi :=
  getRangesSorted_wf _

theorem get_ranges_length (l : List Nat) :
    (get_ranges l).length = runCount (List.insertionSort (· ≤ ·) l) :=
  getRangesSorted_length _

theorem get_ranges_perm {l1 l2 : List Nat} (h : l1.Perm l2) :
    get_ranges l1 = get_ranges l2 := by
  unfold get_ranges
  congr 1
  exact List.eq_of_perm_of_sorted
    ((List.perm_insertionSort _ l1).trans (h.trans (List.perm_insertionSort _ l2).symm))
    (List.sorted_insertionSort _ l1) (List.sorted_insertionSort _ l2)

/-- C2: for every finite set of valid codepoints, `get_ranges` returns
ranges sorted ascending by their low endpoint, pairwise disjoint,
non-adjacent, covering exactly the input set, and their count equals the
number of maximal runs of consecutive integers in the sorted input. -/
theorem get_ranges_correct_minimal (l : List Nat) (hnd : l.Nodup)
    (hvalid : ∀ x ∈ l, x ≤ 0x10FFFF) :
    (get_ranges l).Pairwise (fun r s => r.lo < s.lo) ∧
    (get_ranges l).Pairwise (fun r s =>
      ∀ c : Nat, (RangeSpec.mem c r && RangeSpec.mem c s) = false) ∧
    (get_ranges l).Pairwise (fun r s => r.hi + 1 < s.lo) ∧
    (∀ c : Nat, (get_ranges l).any (RangeSpec.mem c) = true ↔ c ∈ l) ∧
    (get_ranges l).length = runCount (List.insertionSort (· ≤ ·) l) := by
  have hgap := get_ranges_pairwise hnd
  have hwf := get_ranges_wf l
  refine ⟨?_, ?_, hgap, fun c => get_ranges_mem l c, get_ranges_length l⟩
  · refine hgap.imp_of_mem ?_
    intro r s hr _ hrs
    have := hwf r hr
    omega
  · refine hgap.imp ?_
    intro r s hrs c
    by_cases hm : RangeSpec.mem c r = true
    · have h1 := rangeSpec_mem_iff.mp hm
      have h2 : RangeSpec.mem c s = false := by
        rw [Bool.eq_false_iff]
        intro hm2
        have h3 := rangeSpec_mem_iff.mp hm2
        omega
      simp [h2]
    · simp [Bool.eq_false_iff.mpr hm]

theorem get_ranges_correct_minimal_witness :
    ([10, 11, 12, 50] : List Nat).Nodup ∧
    (∀ x ∈ ([10, 11, 12, 50] : List Nat), x ≤ 0x10FFFF) ∧
    get_ranges [10, 11, 12, 50] = [RangeSpec.interval 10 12, RangeSpec.single 50] ∧
    (get_ranges [10, 11, 12, 50]).length =
      runCount (List.insertionSort (· ≤ ·) [10, 11, 12, 50]) :=
  ⟨by decide, by decide, by decide,
    (get_ranges_correct_minimal [10, 11, 12, 50] (by decide) (by decide)).2.2.2.2⟩

/-- C1: processing layers in registration order with
`residual = layer.set − claimed` and `claimed = claimed ∪ residual`, a
codepoint present in several layers is attributed only to the earliest
layer; for layers `[("A", {10,11,12,50}, 2), ("B", {11,12,13}, 0)]` layer A
emits `[10,12]` and `[50]` (the set {10,11,12,50}) and layer B emits
exactly {13}; the resulting classification sends 10,11,12,50 to 2, 13 to 0,
and everything else to the declared default. -/
theorem partition_first_match_wins :
    partition [Layer.mk "A" [10, 11, 12, 50] 2, Layer.mk "B" [11, 12, 13] 0] =
      [Emitted.mk "A" [RangeSpec.interval 10 12, RangeSpec.single 50] 2,
       Emitted.mk "B" [RangeSpec.single 13] 0] ∧
    (∀ c : Nat,
      (Emitted.mk "A" [RangeSpec.interval 10 12, RangeSpec.single 50] 2).matches c = true ↔
        c ∈ ([10, 11, 12, 50] : List Nat)) ∧
    (∀ c : Nat,
      (Emitted.mk "B" [RangeSpec.single 13] 0).matches c = true ↔
        c ∈ ([13] : List Nat)) ∧
    ∀ (d : Int) (c : Nat),
      classify (partition [Layer.mk "A" [10, 11, 12, 50] 2, Layer.mk "B" [11, 12, 13] 0]) d c =
        if c ∈ ([10, 11, 12, 50] : List Nat) then 2 else if c = 13 then 0 else d := by
  have hpart : partition [Layer.mk "A" [10, 11, 12, 50] 2, Layer.mk "B" [11, 12, 13] 0] =
      [Emitted.mk "A" [RangeSpec.interval 10 12, RangeSpec.single 50] 2,
       Emitted.mk "B" [RangeSpec.single 13] 0] := by decide
  refine ⟨hpart, ?_, ?_, ?_⟩
  · intro c
    simp only [Emitted.matches, List.any_cons, List.any_nil, RangeSpec.mem,
      RangeSpec.lo, RangeSpec.hi, Bool.or_false, Bool.or_eq_true,
      Bool.and_eq_true, decide_eq_true_eq, List.mem_cons, List.not_mem_nil, or_false]
    omega
  · intro c
    simp only [Emitted.matches, List.any_cons, List.any_nil, RangeSpec.mem,
      RangeSpec.lo, RangeSpec.hi, Bool.or_false, Bool.or_eq_true,
      Bool.and_eq_true, decide_eq_true_eq, List.mem_cons, List.not_mem_nil, or_false]
    omega
  · intro d c
    rw [hpart]
    simp only [classify, Emitted.matches, List.any_cons, List.any_nil,
      RangeSpec.mem, RangeSpec.lo, RangeSpec.hi, Bool.or_false,
      Bool.or_eq_true, Bool.and_eq_true, decide_eq_true_eq,
      List.mem_cons, List.not_mem_nil, or_false]
    split_ifs <;> omega

/-! ## Lemmas about the partition engine -/

theorem setDiff_mem {a seen : List Nat} {c : Nat} :
    c ∈ setDiff a seen ↔ c ∈ a ∧ c ∉ seen := by
  simp [setDiff]

theorem partitionGo_head_matches (L : Layer) (seen : List Nat) (c : Nat) :
    (Emitted.mk L.label (get_ranges (setDiff L.chars seen)) L.ret).matches c = true ↔
      c ∈ L.chars ∧ c ∉ seen := by
  show (get_ranges (setDiff L.chars seen)).any (RangeSpec.mem c) = true ↔ _
  rw [get_ranges_mem, setDiff_mem]

theorem partitionGo_not_seen (layers : List Layer) :
    ∀ (seen : List Nat) (e : Emitted), e ∈ partitionGo seen layers →
      ∀ c : Nat, c ∈ seen → e.matches c = false := by
  induction layers with
  | nil =>
      intro seen e he
      simp [partitionGo] at he
  | cons L rest ih =>
      intro seen e he c hc
      rcases List.mem_cons.mp he with rfl | he'
      · rw [Bool.eq_false_iff]
        intro hm
        exact ((partitionGo_head_matches L seen c).mp hm).2 hc
      · exact ih _ e he' c (List.mem_append_left _ hc)

theorem partitionGo_countP_of_mem_seen (layers : List Layer) :
    ∀ (seen : List Nat) (c : Nat), c ∈ seen →
      (partitionGo seen layers).countP (fun e => e.matches c) = 0 := by
  intro seen c hc
  rw [List.countP_eq_zero]
  intro e he
  simp [partitionGo_not_seen layers seen e he c hc]

theorem partitionGo_countP (layers : List Layer) :
    ∀ (seen : List Nat) (c : Nat), c ∉ seen →
      (partitionGo seen layers).countP (fun e => e.matches c) =
        if inAnyLayer layers c then 1 else 0 := by
  induction layers with
  | nil =>
      intro seen c _
      simp [partitionGo, inAnyLayer]
  | cons L rest ih =>
      intro seen c hc
      unfold partitionGo
      rw [List.countP_cons]
      by_cases hcL : c ∈ L.chars
      · have hhead : (Emitted.mk L.label (get_ranges (setDiff L.chars seen)) L.ret).matches c = true :=
          (partitionGo_head_matches L seen c).mpr ⟨hcL, hc⟩
        have hseen' : c ∈ seen ++ setDiff L.chars seen :=
          List.mem_append_right _ (setDiff_mem.mpr ⟨hcL, hc⟩)
        rw [partitionGo_countP_of_mem_seen rest _ c hseen']
        have hany : inAnyLayer (L :: rest) c = true := by
          simp [inAnyLayer, hcL]
        rw [if_pos hany]
        simp [hhead]
      · have hhead : (Emitted.mk L.label (get_ranges (setDiff L.chars seen)) L.ret).matches c = false := by
          rw [Bool.eq_false_iff]
          intro hm
          exact hcL ((partitionGo_head_matches L seen c).mp hm).1
        have hseen' : c ∉ seen ++ setDiff L.chars seen := by
          intro hmem
          rcases List.mem_append.mp hmem with h | h
          · exact hc h
          · exact hcL (setDiff_mem.mp h).1
        rw [ih _ c hseen']
        have hany : inAnyLayer (L :: rest) c = inAnyLayer rest c := by
          simp [inAnyLayer, hcL]
        rw [hany]
        simp [hhead]

theorem classify_of_no_match {entries : List Emitted} {dflt : Int} {c : Nat}
    (h : ∀ e ∈ entries, e.matches c = false) :
    classify entries dflt c = dflt := by
  induction entries with
  | nil => rfl
  | cons e rest ih =>
      have he := h e (List.mem_cons_self e rest)
      simp only [classify, he]
      simp only [Bool.false_eq_true, if_false]
      exact ih fun e' he' => h e' (List.mem_cons_of_mem e he')

/-- C3: in a partition pass, every codepoint in the 21-bit domain maps to
exactly one outcome: if it lies in some layer's set then exactly one
emitted layer matches it, and otherwise no layer matches it and the
classification falls through to the appended default outcome. -/
theorem partition_total (layers : List Layer) (dflt : Int) (c : Nat)
    (hc : c ≤ 0x10FFFF) :
    (inAnyLayer layers c = true →
      (partition layers).countP (fun e => e.matches c) = 1) ∧
    (inAnyLayer layers c = false →
      (partition layers).countP (fun e => e.matches c) = 0 ∧
        classify (partition layers) dflt c = dflt) := by
  have hbase := partitionGo_countP layers [] c (by simp)
  constructor
  · intro h
    rw [partition, hbase, if_pos h]
  · intro h
    have hzero : (partition layers).countP (fun e => e.matches c) = 0 := by
      rw [partition, hbase, h]
      rfl
    refine ⟨hzero, classify_of_no_match ?_⟩
    intro e he
    have := List.countP_eq_zero.mp hzero e he
    simpa using this

theorem partition_total_witness :
    (5 : Nat) ≤ 0x10FFFF ∧
    ((inAnyLayer [Layer.mk "X" [5] 7] 5 = true →
       (partition [Layer.mk "X" [5] 7]).countP (fun e => e.matches 5) = 1) ∧
     (inAnyLayer [Layer.mk "X" [5] 7] 5 = false →
       (partition [Layer.mk "X" [5] 7]).countP (fun e => e.matches 5) = 0 ∧
         classify (partition [Layer.mk "X" [5] 7]) 1 5 = 1)) :=
  ⟨by decide, partition_total [Layer.mk "X" [5] 7] 1 5 (by decide)⟩

theorem partitionGo_disjoint (layers : List Layer) :
    ∀ seen : List Nat,
      (partitionGo seen layers).Pairwise
        (fun e1 e2 => ∀ c : Nat, (e1.matches c && e2.matches c) = false) := by
  induction layers with
  | nil =>
      intro seen
      simp [partitionGo]
  | cons L rest ih =>
      intro seen
      unfold partitionGo
      refine List.Pairwise.cons ?_ (ih _)
      intro e2 he2 c
      by_cases hm : (Emitted.mk L.label (get_ranges (setDiff L.chars seen)) L.ret).matches c = true
      · have hcd : c ∈ setDiff L.chars seen := by
          have := (partitionGo_head_matches L seen c).mp hm
          exact setDiff_mem.mpr this
        have h2 : e2.matches c = false :=
          partitionGo_not_seen rest _ e2 he2 c (List.mem_append_right _ hcd)
        simp [h2]
      · simp [Bool.eq_false_iff.mpr hm]

/-- C4: for any two distinct layers of one partition pass, the sets
matched by their emitted range sequences are disjoint: no codepoint is
matched by the clauses of two different layers. -/
theorem partition_exclusive (layers : List Layer) :
    (partition layers).Pairwise
      (fun e1 e2 => ∀ c : Nat, (e1.matches c && e2.matches c) = false) :=
  partitionGo_disjoint layers []

/-! ## Backend equivalence -/

theorem memGo_eq_mem (c : Nat) (r : RangeSpec) :
    RangeSpec.memGo c r = RangeSpec.mem c r := by
  have h : c ∈ case_labels_go r ↔ (r.lo ≤ c ∧ c ≤ r.hi) := by
    cases r with
    | single a =>
        simp only [case_labels_go, List.mem_singleton, RangeSpec.lo, RangeSpec.hi]
        omega
    | interval a b =>
        simp only [case_labels_go, List.mem_range', RangeSpec.lo, RangeSpec.hi]
        constructor
        · rintro ⟨i, hi, rfl⟩
          omega
        · rintro ⟨h1, h2⟩
          exact ⟨c - a, by omega, by omega⟩
  simp only [RangeSpec.memGo, RangeSpec.mem, h, Bool.decide_and]

theorem matchesGo_eq_matches (e : Emitted) (c : Nat) :
    e.matchesGo c = e.matches c := by
  simp only [Emitted.matchesGo, Emitted.matches]
  congr 1
  funext r
  exact memGo_eq_mem c r

theorem classifyGo_eq_classify (entries : List Emitted) (dflt : Int) (c : Nat) :
    classifyGo entries dflt c = classify entries dflt c := by
  induction entries with
  | nil => rfl
  | cons e rest ih =>
      simp only [classifyGo, classify, matchesGo_eq_matches, ih]

/-- C6: for every codepoint in the valid domain, the range-native backend
(inclusive-range case labels) and the range-expanding backend (every
discrete value of each range enumerated) of the same partition classify
the codepoint to the same outcome. -/
theorem backend_equivalence (layers : List Layer) (dflt : Int) (c : Nat)
    (hc : c ≤ 0x10FFFF) :
    classifyGo (partition layers) dflt c = classify (partition layers) dflt c :=
  classifyGo_eq_classify (partition layers) dflt c

theorem backend_equivalence_witness :
    (77 : Nat) ≤ 0x10FFFF ∧
    classifyGo (partition [Layer.mk "W" [77, 78] 2]) 1 77 =
      classify (partition [Layer.mk "W" [77, 78] 2]) 1 77 :=
  ⟨by decide, backend_equivalence [Layer.mk "W" [77, 78] 2] 1 77 (by decide)⟩

/-! ## Lemmas about the dense mark index -/

theorem sorted_indexOf_succ {l : List Nat} (hs : l.Sorted (· < ·)) {x : Nat}
    (hx : x ∈ l) (hx1 : x + 1 ∈ l) :
    l.indexOf (x + 1) = l.indexOf x + 1 := by
  induction l with
  | nil => cases hx
  | cons z rest ih =>
      have hz : ∀ b ∈ rest, z < b := (List.sorted_cons.mp hs).1
      have hs' : rest.Sorted (· < ·) := (List.sorted_cons.mp hs).2
      by_cases hzx : z = x
      · subst hzx
        rw [List.indexOf_cons_self]
        have hne : z ≠ z + 1 := by omega
        rw [List.indexOf_cons_ne _ hne]
        have hmem : z + 1 ∈ rest := by
          rcases List.mem_cons.mp hx1 with h | h
          · omega
          · exact h
        cases rest with
        | nil => cases hmem
        | cons w ws =>
            have hw : z < w := hz w (List.mem_cons_self w ws)
            have hwz : w = z + 1 := by
              rcases List.mem_cons.mp hmem with h | h
              · omega
              · have hw2 : ∀ b ∈ ws, w < b := (List.sorted_cons.mp hs').1
                have := hw2 _ h
                omega
            have h0 : List.indexOf (z + 1) (w :: ws) = 0 := by
              rw [hwz]
              exact List.indexOf_cons_self _ _
            rw [h0]
      · have hxr : x ∈ rest := by
          rcases List.mem_cons.mp hx with h | h
          · exact absurd h.symm hzx
          · exact h
        have hzlt : z < x := hz x hxr
        have hzx1 : z ≠ x + 1 := by omega
        have hx1r : x + 1 ∈ rest := by
          rcases List.mem_cons.mp hx1 with h | h
          · omega
          · exact h
        rw [List.indexOf_cons_ne _ (fun h => hzx h), List.indexOf_cons_ne _ hzx1,
          ih hs' hxr hx1r]

theorem sorted_indexOf_add {l : List Nat} (hs : l.Sorted (· < ·)) (a : Nat)
    (ha : a ∈ l) : ∀ d : Nat, (∀ k : Nat, k ≤ d → a + k ∈ l) →
      l.indexOf (a + d) = l.indexOf a + d := by
  intro d
  induction d with
  | zero => intro _; simp
  | succ n ih =>
      intro hall
      have h1 : a + n ∈ l := hall n (by omega)
      have h2 : (a + n) + 1 ∈ l := by
        have := hall (n + 1) (Nat.le_refl _)
        have harith : a + (n + 1) = (a + n) + 1 := by omega
        rwa [harith] at this
      have harith : a + (n + 1) = (a + n) + 1 := by omega
      rw [harith, sorted_indexOf_succ hs h1 h2, ih (fun k hk => hall k (by omega))]
      omega

theorem rmapGo_eq_acc (c : Nat) (l : List Nat) :
    ∀ acc i : Nat, c ∉ l → rmapGo c acc i l = acc := by
  induction l with
  | nil => intros; rfl
  | cons x xs ih =>
      intro acc i hc
      unfold rmapGo
      have hx : x ≠ c := by
        intro h
        exact hc (by rw [← h]; exact List.mem_cons_self x xs)
      rw [if_neg hx]
      exact ih acc (i + 1) (fun h => hc (List.mem_cons_of_mem x h))

theorem rmapGo_eq_indexOf (c : Nat) (l : List Nat) :
    ∀ acc i : Nat, c ∈ l → l.Nodup →
      rmapGo c acc i l = i + l.indexOf c := by
  induction l with
  | nil => intro _ _ h _; cases h
  | cons x xs ih =>
      intro acc i hc hnd
      unfold rmapGo
      by_cases hx : x = c
      · rw [if_pos hx]
        have hcxs : c ∉ xs := by
          rw [← hx]
          exact (List.nodup_cons.mp hnd).1
        rw [rmapGo_eq_acc c xs i (i + 1) hcxs, ← hx, List.indexOf_cons_self]
        omega
      · rw [if_neg hx]
        have hcxs : c ∈ xs := by
          rcases List.mem_cons.mp hc with h | h
          · exact absurd h.symm hx
          · exact h
        rw [ih acc (i + 1) hcxs (List.nodup_cons.mp hnd).2,
          List.indexOf_cons_ne _ hx]
        omega

theorem rmapGet_eq_indexOf {l : List Nat} {c : Nat} (hc : c ∈ l) (hnd : l.Nodup) :
    rmapGet l c = l.indexOf c := by
  unfold rmapGet
  rw [rmapGo_eq_indexOf c l 0 0 hc hnd]
  omega

theorem evalMarkClauses_no_match (mm : List Nat) (specs : List RangeSpec) (c : Nat)
    (h : ∀ r ∈ specs, RangeSpec.mem c r = false) :
    evalMarkClauses (specs.map (fun spec =>
      match spec with
      | RangeSpec.single a => MarkClause.fixedCl a (rmapGet mm a)
      | RangeSpec.interval a b => MarkClause.offsetCl a b (rmapGet mm a))) c = 0 := by
  induction specs with
  | nil => rfl
  | cons r rest ih =>
      have hr := h r (List.mem_cons_self r rest)
      have ih' := ih (fun r' hr' => h r' (List.mem_cons_of_mem r hr'))
      cases r with
      | single a =>
          simp only [List.map_cons, evalMarkClauses]
          have hca : c ≠ a := by
            intro h'
            rw [Bool.eq_false_iff] at hr
            exact hr (rangeSpec_mem_iff.mpr ⟨show a ≤ c by omega, show c ≤ a by omega⟩)
          rw [if_neg hca]
          exact ih'
      | interval a b =>
          simp only [List.map_cons, evalMarkClauses]
          have hca : ¬(a ≤ c ∧ c ≤ b) := by
            intro h'
            rw [Bool.eq_false_iff] at hr
            exact hr (rangeSpec_mem_iff.mpr h')
          rw [if_neg hca]
          exact ih'

theorem evalMarkClauses_match (mm : List Nat) (specs : List RangeSpec) (c : Nat) :
    specs.any (RangeSpec.mem c) = true →
      ∃ r ∈ specs, RangeSpec.mem c r = true ∧
        evalMarkClauses (specs.map (fun spec =>
          match spec with
          | RangeSpec.single a => MarkClause.fixedCl a (rmapGet mm a)
          | RangeSpec.interval a b => MarkClause.offsetCl a b (rmapGet mm a))) c =
          rmapGet mm r.lo + (c - r.lo) := by
  induction specs with
  | nil => intro h; cases h
  | cons r rest ih =>
      intro hany
      cases r with
      | single a =>
          by_cases hca : c = a
          · refine ⟨RangeSpec.single a, List.mem_cons_self _ _, ?_, ?_⟩
            · exact rangeSpec_mem_iff.mpr ⟨show a ≤ c by omega, show c ≤ a by omega⟩
            · simp only [List.map_cons, evalMarkClauses, if_pos hca, RangeSpec.lo]
              omega
          · have hmr : RangeSpec.mem c (RangeSpec.single a) = false := by
              rw [Bool.eq_false_iff]
              intro hm
              have := rangeSpec_mem_iff.mp hm
              simp only [RangeSpec.lo, RangeSpec.hi] at this
              omega
            have hrest : rest.any (RangeSpec.mem c) = true := by
              simp only [List.any_cons, hmr, Bool.false_or] at hany
              exact hany
            obtain ⟨r', hr'mem, hr'c, heval⟩ := ih hrest
            refine ⟨r', List.mem_cons_of_mem _ hr'mem, hr'c, ?_⟩
            simp only [List.map_cons, evalMarkClauses, if_neg hca]
            exact heval
      | interval a b =>
          by_cases hca : a ≤ c ∧ c ≤ b
          · refine ⟨RangeSpec.interval a b, List.mem_cons_self _ _, ?_, ?_⟩
            · exact rangeSpec_mem_iff.mpr hca
            · simp only [List.map_cons, evalMarkClauses, if_pos hca, RangeSpec.lo]
          · have hmr : RangeSpec.mem c (RangeSpec.interval a b) = false := by
              rw [Bool.eq_false_iff]
              intro hm
              exact hca (rangeSpec_mem_iff.mp hm)
            have hrest : rest.any (RangeSpec.mem c) = true := by
              simp only [List.any_cons, hmr, Bool.false_or] at hany
              exact hany
            obtain ⟨r', hr'mem, hr'c, heval⟩ := ih hrest
            refine ⟨r', List.mem_cons_of_mem _ hr'mem, hr'c, ?_⟩
            simp only [List.map_cons, evalMarkClauses, if_neg hca]
            exact heval

theorem mark_eval_indexOf {mm : List Nat} (hs : mm.Sorted (· < ·)) (c : Nat) :
    (c ∈ mm → evalMarkClauses (markClauses mm) c = mm.indexOf c) ∧
    (c ∉ mm → evalMarkClauses (markClauses mm) c = 0) := by
  have hnd : mm.Nodup := hs.nodup
  constructor
  · intro hc
    have hany : (get_ranges mm).any (RangeSpec.mem c) = true :=
      (get_ranges_mem mm c).mpr hc
    obtain ⟨r, hrmem, hrc, heval⟩ := evalMarkClauses_match mm (get_ranges mm) c hany
    have hrwf := get_ranges_wf mm r hrmem
    have hmemprop := rangeSpec_mem_iff.mp hrc
    have hlomem : r.lo ∈ mm := by
      apply (get_ranges_mem mm r.lo).mp
      exact List.any_eq_true.mpr ⟨r, hrmem, rangeSpec_mem_iff.mpr ⟨Nat.le_refl _, hrwf⟩⟩
    have hsub : ∀ k : Nat, k ≤ c - r.lo → r.lo + k ∈ mm := by
      intro k hk
      apply (get_ranges_mem mm _).mp
      exact List.any_eq_true.mpr ⟨r, hrmem, rangeSpec_mem_iff.mpr ⟨by omega, by omega⟩⟩
    have hidx := sorted_indexOf_add hs r.lo hlomem (c - r.lo) hsub
    have harith : r.lo + (c - r.lo) = c := by omega
    rw [harith] at hidx
    show evalMarkClauses ((get_ranges mm).map _) c = _
    rw [heval, rmapGet_eq_indexOf hlomem hnd]
    omega
  · intro hc
    apply evalMarkClauses_no_match
    intro r hrmem
    rw [Bool.eq_false_iff]
    intro hrc
    exact hc ((get_ranges_mem mm c).mp (List.any_eq_true.mpr ⟨r, hrmem, hrc⟩))

theorem mark_map_sorted {marks : List Nat} (hnd : marks.Nodup) (h0 : 0 ∉ marks) :
    (mark_map marks).Sorted (· < ·) := by
  unfold mark_map
  rw [List.sorted_cons]
  constructor
  · intro b hb
    have hbm : b ∈ marks := (List.perm_insertionSort (· ≤ ·) marks).mem_iff.mp hb
    have : b ≠ 0 := fun h => h0 (h ▸ hbm)
    omega
  · exact insertionSort_sorted_lt hnd

/-- C5: with forward array `M = [0] + sorted(marks)` and the generated
reverse switch, `forward(0) = 0`, `reverse(forward(i)) = i` for every
`i ∈ [0, n]`, and `reverse(c) = 0` for every codepoint `c` outside the
mark set. -/
theorem mark_index_inverse (marks : List Nat) (hnd : marks.Nodup)
    (h0 : 0 ∉ marks) :
    codepoint_for_mark marks 0 = 0 ∧
    (∀ i : Nat, i ≤ marks.length →
      mark_for_codepoint marks (codepoint_for_mark marks i) = i) ∧
    (∀ c : Nat, c ∉ marks → mark_for_codepoint marks c = 0) := by
  have hs := mark_map_sorted hnd h0
  have hndm : (mark_map marks).Nodup := hs.nodup
  refine ⟨rfl, ?_, ?_⟩
  · intro i hi
    have hlen : (mark_map marks).length = marks.length + 1 := by
      simp [mark_map, List.length_insertionSort]
    have hilt : i < (mark_map marks).length := by omega
    have hgetd : codepoint_for_mark marks i = (mark_map marks)[i] := by
      unfold codepoint_for_mark
      rw [List.getD_eq_getElem?_getD, List.getElem?_eq_getElem hilt]
      rfl
    rw [hgetd]
    unfold mark_for_codepoint
    rw [(mark_eval_indexOf hs _).1 (List.getElem_mem hilt)]
    exact List.indexOf_getElem hndm i hilt
  · intro c hc
    unfold mark_for_codepoint
    by_cases hc0 : c = 0
    · subst hc0
      rw [(mark_eval_indexOf hs 0).1 (by simp [mark_map])]
      simp [mark_map]
    · have hnm : c ∉ mark_map marks := by
        simp only [mark_map, List.mem_cons]
        rintro (h | hmem)
        · exact hc0 h
        · exact hc ((List.perm_insertionSort (· ≤ ·) marks).mem_iff.mp hmem)
      exact (mark_eval_indexOf hs c).2 hnm

theorem mark_index_inverse_witness :
    ([5, 7] : List Nat).Nodup ∧ (0 : Nat) ∉ ([5, 7] : List Nat) ∧
    (codepoint_for_mark [5, 7] 0 = 0 ∧
     (∀ i : Nat, i ≤ ([5, 7] : List Nat).length →
       mark_for_codepoint [5, 7] (codepoint_for_mark [5, 7] i) = i) ∧
     (∀ c : Nat, c ∉ ([5, 7] : List Nat) → mark_for_codepoint [5, 7] c = 0)) :=
  ⟨by decide, by decide, mark_index_inverse [5, 7] (by decide) (by decide)⟩

/-- C7: every maximal contiguous run of mark codepoints is emitted as one
clause computing the ordinal by arithmetic offset: for mark list
`[0,5,7,8,9,20]` the codepoints 7,8,9 (ordinals 2,3,4) are covered by the
single clause `offsetCl 7 9 2` (i.e. `return 2 + c - 7;`), not by three
separate clauses. -/
theorem mark_contiguity :
    markClauses (mark_map [5, 7, 8, 9, 20]) =
      [MarkClause.fixedCl 0 0, MarkClause.fixedCl 5 1,
       MarkClause.offsetCl 7 9 2, MarkClause.fixedCl 20 5] ∧
    mark_for_codepoint [5, 7, 8, 9, 20] 7 = 2 ∧
    mark_for_codepoint [5, 7, 8, 9, 20] 8 = 3 ∧
    mark_for_codepoint [5, 7, 8, 9, 20] 9 = 4 := by decide

/-! ## Determinism -/

theorem setDiff_congr_seen {a : List Nat} {seen1 seen2 : List Nat}
    (h : seen1.Perm seen2) : setDiff a seen1 = setDiff a seen2 := by
  unfold setDiff
  apply List.filter_congr
  intro x _
  simp [h.mem_iff]

theorem partitionGo_perm :
    ∀ {L1 L2 : List Layer},
      List.Forall₂ (fun a b => a.label = b.label ∧ a.chars.Perm b.chars ∧ a.ret = b.ret) L1 L2 →
      ∀ seen1 seen2 : List Nat, seen1.Perm seen2 →
        partitionGo seen1 L1 = partitionGo seen2 L2 := by
  intro L1 L2 h
  induction h with
  | nil => intros; rfl
  | @cons a b l1 l2 hab hrest ih =>
      intro seen1 seen2 hseen
      obtain ⟨hlab, hchars, hret⟩ := hab
      unfold partitionGo
      have heq : setDiff a.chars seen1 = setDiff a.chars seen2 :=
        setDiff_congr_seen hseen
      have hdperm : (setDiff a.chars seen1).Perm (setDiff b.chars seen2) := by
        rw [heq]
        exact hchars.filter _
      congr 1
      · rw [hlab, hret]
        congr 1
        exact get_ranges_perm hdperm
      · exact ih _ _ (hseen.append hdperm)

/-- C8: two generation runs over identical input sets, inserted in
different orders, emit identical structures: `get_ranges` is invariant
under permutation of its input (every emission sorts before grouping), and
a whole partition pass is invariant under per-layer permutation of the
layer sets (layers are iterated in the fixed caller-supplied order). -/
theorem emission_deterministic :
    (∀ l1 l2 : List Nat, l1.Perm l2 → get_ranges l1 = get_ranges l2) ∧
    (∀ L1 L2 : List Layer,
      List.Forall₂ (fun a b => a.label = b.label ∧ a.chars.Perm b.chars ∧ a.ret = b.ret) L1 L2 →
      partition L1 = partition L2) := by
  constructor
  · intro l1 l2 h
    exact get_ranges_perm h
  · intro L1 L2 h
    exact partitionGo_perm h [] [] (List.Perm.refl [])

theorem emission_deterministic_witness :
    get_ranges [3, 1] = get_ranges [1, 3] ∧
    partition [Layer.mk "A" [2, 1] 0] = partition [Layer.mk "A" [1, 2] 0] :=
  ⟨emission_deterministic.1 [3, 1] [1, 3] (by decide),
   emission_deterministic.2 [Layer.mk "A" [2, 1] 0] [Layer.mk "A" [1, 2] 0]
     (List.Forall₂.cons ⟨rfl, by decide, rfl⟩ List.Forall₂.nil)⟩

/-! ## Anchor patching -/

theorem subnGo_no_end (repl : List String) (lines : List String)
    (h : ∀ l ∈ lines, lineIsEnd l = false) :
    (∀ st : String, ∀ pend : List String,
      subnGo repl (some (st, pend)) lines = (st :: pend.reverse ++ lines, 0)) ∧
    ((∀ l ∈ lines, lineIsStart l = false) →
      subnGo repl none lines = (lines, 0)) := by
  induction lines with
  | nil =>
      constructor
      · intro st pend
        show (st :: pend.reverse, 0) = (st :: pend.reverse ++ [], 0)
        rw [List.append_nil]
      · intro _
        rfl
  | cons l ls ih =>
      have hl := h l (List.mem_cons_self l ls)
      have ih' := ih (fun x hx => h x (List.mem_cons_of_mem l hx))
      constructor
      · intro st pend
        simp only [subnGo]
        rw [if_neg (by simp [hl])]
        rw [ih'.1 st (l :: pend)]
        simp
      · intro hst
        have hstl := hst l (List.mem_cons_self l ls)
        simp only [subnGo]
        rw [if_neg (by simp [hstl])]
        have := ih'.2 (fun x hx => hst x (List.mem_cons_of_mem l hx))
        rw [this]

theorem subnGo_no_start (repl : List String) (lines : List String)
    (h : ∀ l ∈ lines, lineIsStart l = false) :
    subnGo repl none lines = (lines, 0) := by
  induction lines with
  | nil => rfl
  | cons l ls ih =>
      have hl := h l (List.mem_cons_self l ls)
      simp only [subnGo]
      rw [if_neg (by simp [hl])]
      rw [ih (fun x hx => h x (List.mem_cons_of_mem l hx))]

theorem subnGo_count_no_end (repl : List String) (lines : List String)
    (h : ∀ l ∈ lines, lineIsEnd l = false) :
    ∀ mode : Option (String × List String), (subnGo repl mode lines).2 = 0 := by
  induction lines with
  | nil =>
      intro mode
      rcases mode with _ | ⟨st, pend⟩ <;> rfl
  | cons l ls ih =>
      intro mode
      have hl := h l (List.mem_cons_self l ls)
      have ih' := ih (fun x hx => h x (List.mem_cons_of_mem l hx))
      rcases mode with _ | ⟨st, pend⟩
      · simp only [subnGo]
        by_cases hst : lineIsStart l
        · rw [if_pos hst]
          exact ih' _
        · rw [if_neg hst]
          exact ih' none
      · simp only [subnGo]
        rw [if_neg (by simp [hl])]
        exact ih' _

/-- C9: when either anchor marker is absent from the pre-existing target
artifact, the patch operation aborts the run with an error and the
artifact's content is left unchanged (nothing is written on failure). -/
theorem anchor_patch_fatal_atomic (vs15 vs16 : Nat) (lines : List String)
    (h : (∀ l ∈ lines, lineIsStart l = false) ∨
         (∀ l ∈ lines, lineIsEnd l = false)) :
    patchKnownMarks vs15 vs16 lines =
      Except.error "Faile dto patch mark definitions in unicode-data.h" ∧
    fileAfterPatch vs15 vs16 lines = lines := by
  have hcount : (subnGo (replKnownMarks vs15 vs16) none lines).2 = 0 := by
    rcases h with h | h
    · rw [subnGo_no_start _ _ h]
    · exact subnGo_count_no_end _ _ h none
  have herr : patchKnownMarks vs15 vs16 lines =
      Except.error "Faile dto patch mark definitions in unicode-data.h" := by
    unfold patchKnownMarks
    rw [if_pos hcount]
  refine ⟨herr, ?_⟩
  unfold fileAfterPatch
  rw [herr]

theorem anchor_patch_fatal_atomic_witness :
    ((∀ l ∈ (["int x;", "// END_KNOWN_MARKS"] : List String), lineIsStart l = false) ∨
     (∀ l ∈ (["int x;", "// END_KNOWN_MARKS"] : List String), lineIsEnd l = false)) ∧
    (patchKnownMarks 1 2 ["int x;", "// END_KNOWN_MARKS"] =
      Except.error "Faile dto patch mark definitions in unicode-data.h" ∧
     fileAfterPatch 1 2 ["int x;", "// END_KNOWN_MARKS"] =
      ["int x;", "// END_KNOWN_MARKS"]) :=
  ⟨Or.inl (by decide),
   anchor_patch_fatal_atomic 1 2 ["int x;", "// END_KNOWN_MARKS"] (Or.inl (by decide))⟩

/-! ## Name export -/

/-- C10: the name export aborts with an error, before any output line is
produced, whenever the number of named codepoints exceeds `0xFFFF`;
otherwise it emits the counts header followed by exactly one line per
named codepoint in strictly ascending codepoint order, each line carrying
the primary name tokens and, when aliases remain, a tab followed by the
sorted aliases. -/
theorem gen_names_export (nm : List (Nat × String))
    (wsm : List (String × List Nat)) :
    (0xffff < (dictKeys nm).length ↔
      gen_names nm wsm = Except.error "Too many named codepoints") ∧
    ((dictKeys nm).length ≤ 0xffff →
      ∃ ks : List Nat,
        gen_names nm wsm = Except.ok (headerNames nm wsm :: ks.map (nameLine nm wsm)) ∧
        ks.Perm (dictKeys nm) ∧ ks.Sorted (· < ·) ∧
        ks.length = (dictKeys nm).length) ∧
    (∀ cp : Nat,
      (finalAliases nm wsm cp = [] →
        nameLine nm wsm cp = joinSpace (toString cp :: primaryWords nm cp)) ∧
      (finalAliases nm wsm cp ≠ [] →
        nameLine nm wsm cp =
          joinSpace (toString cp :: primaryWords nm cp) ++
            ("\t" ++ joinSpace (finalAliases nm wsm cp)))) := by
  refine ⟨?_, ?_, ?_⟩
  · constructor
    · intro h
      unfold gen_names
      rw [if_pos h]
    · intro h
      by_contra hlt
      unfold gen_names at h
      rw [if_neg hlt] at h
      cases h
  · intro h
    refine ⟨List.insertionSort (· ≤ ·) (dictKeys nm), ?_, ?_, ?_, ?_⟩
    · unfold gen_names
      rw [if_neg (by omega)]
    · exact List.perm_insertionSort _ _
    · exact insertionSort_sorted_lt (List.nodup_dedup _)
    · exact List.length_insertionSort _ _
  · intro cp
    constructor
    · intro h
      unfold nameLine
      rw [if_pos h, String.append_empty]
    · intro h
      unfold nameLine
      rw [if_neg h]

theorem gen_names_export_witness :
    (dictKeys [(66, "LATIN B"), (65, "LATIN A")]).length ≤ 0xffff ∧
    ∃ ks : List Nat,
      gen_names [(66, "LATIN B"), (65, "LATIN A")] [] =
        Except.ok (headerNames [(66, "LATIN B"), (65, "LATIN A")] [] ::
          ks.map (nameLine [(66, "LATIN B"), (65, "LATIN A")] [])) ∧
      ks.Perm (dictKeys [(66, "LATIN B"), (65, "LATIN A")]) ∧
      ks.Sorted (· < ·) ∧
      ks.length = (dictKeys [(66, "LATIN B"), (65, "LATIN A")]).length :=
  ⟨by decide,
   (gen_names_export [(66, "LATIN B"), (65, "LATIN A")] []).2.1 (by decide)⟩

theorem partition_first_match_wins_witness :
    classify (partition [Layer.mk "A" [10, 11, 12, 50] 2, Layer.mk "B" [11, 12, 13] 0]) 9 11 = 2 ∧
    classify (partition [Layer.mk "A" [10, 11, 12, 50] 2, Layer.mk "B" [11, 12, 13] 0]) 9 13 = 0 ∧
    classify (partition [Layer.mk "A" [10, 11, 12, 50] 2, Layer.mk "B" [11, 12, 13] 0]) 9 14 = 9 :=
  ⟨(partition_first_match_wins.2.2.2 9 11).trans (by decide),
   (partition_first_match_wins.2.2.2 9 13).trans (by decide),
   (partition_first_match_wins.2.2.2 9 14).trans (by decide)⟩

theorem partition_exclusive_witness :
    (partition [Layer.mk "A" [10, 11, 12, 50] 2, Layer.mk "B" [11, 12, 13] 0]).Pairwise
      (fun e1 e2 => ∀ c : Nat, (e1.matches c && e2.matches c) = false) :=
  partition_exclusive [Layer.mk "A" [10, 11, 12, 50] 2, Layer.mk "B" [11, 12, 13] 0]
